import Mathlib

/-!
Shallow embedding of the `fft` Rust crate (files `src/error.rs`, `src/utils.rs`,
`src/dft.rs`, `src/fft.rs`) and proofs of the specification claims.

Modelling conventions:
* `f64` is modelled as `ℝ` and `Complex64` as `ℂ` (exact arithmetic; the
  floating-point tolerances of the spec are satisfied because the exact model
  makes the relevant differences `0`).
* A Rust `panic` (index out of bounds, `assert_eq!` failure, `zip_eq` length
  mismatch) and the typed error `FftError` are both modelled in an `Except`
  monad over the error type `RunErr`, which keeps the two kinds apart.
* `Vec<T>`/slices are modelled as `List`.
-/

namespace Fft

open Complex

/-- The kind of a Rust panic that the embedded code can raise. -/
inductive PanicKind where
  | indexOutOfBounds
  | assertFailed
deriving DecidableEq

/-- `src/error.rs`: `enum FftError { NotAPowerOfTwo(usize) }`. -/
inductive FftError where
  | NotAPowerOfTwo (n : Nat)
deriving DecidableEq

/-- A runtime outcome other than a normal return: a panic or a typed error. -/
inductive RunErr where
  | panic (k : PanicKind)
  | err (e : FftError)
deriving DecidableEq

/-- Result monad of the embedding: `Except.ok` models a normal return
(`Ok` for `Result`-valued functions, the plain value otherwise). -/
abbrev Res (α : Type) := Except RunErr α

/-- `Complex::new(re, im)`. -/
def mkC (re im : ℝ) : ℂ := ⟨re, im⟩

/-- Rust slice indexing `l[i]`: the element, or an index-out-of-bounds panic. -/
def idxE {α : Type} (l : List α) (i : Nat) : Res α :=
  match l[i]? with
  | some a => pure a
  | none => .error (.panic .indexOutOfBounds)

/-- `assert_eq!` (and the length check of itertools `zip_eq`): a no-op when the
condition holds, a panic otherwise. -/
def assertE (b : Bool) : Res Unit :=
  if b then pure () else .error (.panic .assertFailed)

/-- `src/utils.rs` `mul_mv`: multiplies a matrix by a vector.
```
assert_eq!(m[0].len(), m.len());
assert_eq!(m.len(), v.len());
(0..m.len()).map(|i| (0..m.len()).map(|j| m[i][j] * v[j]).sum()).collect()
``` -/
def mul_mv (m : List (List ℂ)) (v : List ℂ) : Res (List ℂ) := do
  let row0 ← idxE m 0
  _ ← assertE (row0.length == m.length)
  _ ← assertE (m.length == v.length)
  (List.range m.length).mapM (fun i => do
    let terms ← (List.range m.length).mapM (fun j => do
      let row ← idxE m i
      let a ← idxE row j
      let b ← idxE v j
      pure (a * b))
    pure terms.sum)

/-- `src/utils.rs` `add_vv`: `a.iter().zip_eq(b.iter()).map(|(x, y)| x + y)`;
`zip_eq` panics when the lengths differ. -/
def add_vv (a b : List ℂ) : Res (List ℂ) :=
  if a.length = b.length then pure ((a.zip b).map (fun p => p.1 + p.2))
  else .error (.panic .assertFailed)

/-- `src/utils.rs` `mul_vv_el`: element-wise product via `zip_eq`. -/
def mul_vv_el (a b : List ℂ) : Res (List ℂ) :=
  if a.length = b.length then pure ((a.zip b).map (fun p => p.1 * p.2))
  else .error (.panic .assertFailed)

/-- `src/dft.rs` `compute_dft_matrix`: entry `(i, j)` is
`(w * Complex::new(0, i as f64) * Complex::new(0, j as f64)).exp()` —
the loop indices are embedded as purely imaginary numbers. -/
noncomputable def compute_dft_matrix (len : Nat) (w : ℂ) : List (List ℂ) :=
  (List.range len).map (fun (i : ℕ) =>
    (List.range len).map (fun (j : ℕ) =>
      Complex.exp (w * mkC 0 (i : ℝ) * mkC 0 (j : ℝ))))

/-- `src/dft.rs` `dft_complex`: `w = Complex::new(0, -2 * PI / x.len())`,
then `Ok(mul_mv(&compute_dft_matrix(x.len(), w), x))`. -/
noncomputable def dft_complex (x : List ℂ) : Res (List ℂ) :=
  mul_mv (compute_dft_matrix x.length (mkC 0 (-2 * Real.pi / (x.length : ℝ)))) x

/-- `src/dft.rs` `dft`: promote each real sample to a complex number with zero
imaginary part (`(0..x.len()).map(|i| Complex::new(x[i], 0.))`), delegate. -/
noncomputable def dft (x : List ℝ) : Res (List ℂ) :=
  dft_complex (x.map (fun v => mkC v 0))

/-- `src/dft.rs` `idft`: `w = Complex::new(0, 2 * PI / x.len())`, apply the
matrix, then `(0..r.len()).map(|i| (r[i] / Complex::new(n, 0)).re)`. -/
noncomputable def idft (x : List ℂ) : Res (List ℝ) := do
  let r ← mul_mv (compute_dft_matrix x.length (mkC 0 (2 * Real.pi / (x.length : ℝ)))) x
  (List.range r.length).mapM (fun i => do
    let ri ← idxE r i
    pure ((ri / mkC (x.length : ℝ) 0).re))

/-- Rust `usize::is_power_of_two` (`n` has exactly one set bit; `0` is not a
power of two, `1` is). -/
def is_power_of_two : Nat → Bool
  | 0 => false
  | 1 => true
  | (n + 2) => ((n + 2) % 2 == 0) && is_power_of_two ((n + 2) / 2)
decreasing_by exact Nat.div_lt_self (by omega) (by omega)

/-- Elements at even indices of a list, in order: the `x_even` vector built by
`fft_complex`'s loop (`if i % 2 == 0 { x_even.push(x[i]) }`). -/
def evenIdx {α : Type} : List α → List α
  | [] => []
  | [a] => [a]
  | a :: _ :: t => a :: evenIdx t

/-- Elements at odd indices of a list, in order: the `x_odd` vector built by
`fft_complex`'s loop (`else { x_odd.push(x[i]) }`). -/
def oddIdx {α : Type} (l : List α) : List α := evenIdx l.tail

theorem evenIdx_length {α : Type} : ∀ l : List α, (evenIdx l).length = (l.length + 1) / 2
  | [] => by simp [evenIdx]
  | [_] => by simp [evenIdx]
  | _ :: _ :: t => by
    simp only [evenIdx, List.length_cons, evenIdx_length t]
    omega

theorem oddIdx_length {α : Type} (l : List α) : (oddIdx l).length = l.length / 2 := by
  cases l with
  | nil => simp [oddIdx, evenIdx]
  | cons a t =>
    simp only [oddIdx, List.tail_cons, evenIdx_length t, List.length_cons]

/-- `src/fft.rs` `fft_complex`: check the power-of-two precondition, delegate to
`dft_complex` for `N <= 2`, otherwise recurse on the even- and odd-indexed
halves and combine with twiddle factors `f_i[i] = (w * i).exp()` where
`w = Complex::new(0, 2 * PI / N)`:
```
let mut aa = add_vv(&x_even_cmplx.clone(), &mul_vv_el(&x_odd_cmplx, &f_i[0..N / 2]));
let mut bb = add_vv(&x_even_cmplx, &mul_vv_el(&x_odd_cmplx, &f_i[N / 2..]));
r.append(&mut aa); r.append(&mut bb);
``` -/
noncomputable def fft_complex (x : List ℂ) : Res (List ℂ) :=
  if _h1 : is_power_of_two x.length = false then
    .error (.err (.NotAPowerOfTwo x.length))
  else if _h2 : x.length ≤ 2 then dft_complex x
  else do
    let x_even_cmplx ← fft_complex (evenIdx x)
    let x_odd_cmplx ← fft_complex (oddIdx x)
    let f_i : List ℂ := (List.range x.length).map
      (fun (i : ℕ) => Complex.exp (mkC 0 (2 * Real.pi / (x.length : ℝ)) * mkC (i : ℝ) 0))
    let p1 ← mul_vv_el x_odd_cmplx (f_i.take (x.length / 2))
    let aa ← add_vv x_even_cmplx p1
    let p2 ← mul_vv_el x_odd_cmplx (f_i.drop (x.length / 2))
    let bb ← add_vv x_even_cmplx p2
    pure (aa ++ bb)
termination_by x.length
decreasing_by
  · simp only [evenIdx_length]; omega
  · simp only [oddIdx_length]; omega

/-- `src/fft.rs` `fft`: promote to complex, delegate to `fft_complex`. -/
noncomputable def fft (x : List ℝ) : Res (List ℂ) :=
  fft_complex (x.map (fun v => mkC v 0))

/-- `src/fft.rs` `ifft`: conjugate, forward `fft_complex`, conjugate again
(`(0..x.len()).map(|i| x_res[i].conj())`), divide by `Complex::new(n, 0)`,
keep the real part. -/
noncomputable def ifft (x : List ℂ) : Res (List ℝ) := do
  let x_res ← fft_complex (x.map (fun c => (starRingEnd ℂ) c))
  let r ← (List.range x.length).mapM (fun i => do
    let xi ← idxE x_res i
    pure ((starRingEnd ℂ) xi))
  (List.range r.length).mapM (fun i => do
    let ri ← idxE r i
    pure ((ri / mkC (x.length : ℝ) 0).re))

/-! ### Monad and indexing infrastructure -/

@[simp] theorem pure_eq_ok {α : Type} (a : α) : (pure a : Res α) = Except.ok a := rfl

@[simp] theorem ok_bind {α β : Type} (a : α) (f : α → Res β) :
    (Except.ok a : Res α) >>= f = f a := rfl

@[simp] theorem error_bind {α β : Type} (e : RunErr) (f : α → Res β) :
    (Except.error e : Res α) >>= f = Except.error e := rfl

theorem mapM_ok {α β : Type} (l : List α) (F : α → Res β) (f : α → β)
    (h : ∀ a ∈ l, F a = Except.ok (f a)) : l.mapM F = Except.ok (l.map f) := by
  induction l with
  | nil => rfl
  | cons a t ih =>
    rw [List.mapM_cons, h a (List.mem_cons_self a t),
      ih (fun b hb => h b (List.mem_cons_of_mem a hb))]
    rfl

theorem idxE_ok {α : Type} (l : List α) (d : α) {i : Nat} (h : i < l.length) :
    idxE l i = Except.ok (l.getD i d) := by
  simp [idxE, List.getElem?_eq_getElem h, List.getD_eq_getElem l d h]

theorem idxE_oob {α : Type} (l : List α) {i : Nat} (h : l.length ≤ i) :
    idxE l i = Except.error (RunErr.panic PanicKind.indexOutOfBounds) := by
  simp [idxE, List.getElem?_eq_none_iff.2 h]

@[simp] theorem assertE_true : assertE true = Except.ok () := rfl

@[simp] theorem assertE_false :
    assertE false = Except.error (RunErr.panic PanicKind.assertFailed) := rfl

/-! ### Normal forms of the linear-algebra primitives -/

theorem mul_mv_ok (m : List (List ℂ)) (v : List ℂ) (h0 : 0 < m.length)
    (hsq : ∀ row ∈ m, row.length = m.length) (hv : m.length = v.length) :
    mul_mv m v = Except.ok ((List.range m.length).map (fun i =>
      ((List.range m.length).map (fun j => (m.getD i []).getD j 0 * v.getD j 0)).sum)) := by
  have hrow0 : (m.getD 0 []).length = m.length := by
    rw [List.getD_eq_getElem m [] h0]
    exact hsq _ (List.getElem_mem h0)
  unfold mul_mv
  rw [idxE_ok m [] h0]
  simp only [ok_bind]
  rw [show ((m.getD 0 []).length == m.length) = true from beq_iff_eq.2 hrow0,
    show (m.length == v.length) = true from beq_iff_eq.2 hv]
  simp only [assertE_true, ok_bind]
  refine mapM_ok _ _ _ (fun i hi => ?_)
  rw [List.mem_range] at hi
  have hrowi : (m.getD i []).length = m.length := by
    rw [List.getD_eq_getElem m [] hi]
    exact hsq _ (List.getElem_mem hi)
  have hbody : ∀ j ∈ List.range m.length,
      (do
        let row ← idxE m i
        let a ← idxE row j
        let b ← idxE v j
        pure (a * b) : Res ℂ) = Except.ok ((m.getD i []).getD j 0 * v.getD j 0) := by
    intro j hj
    rw [List.mem_range] at hj
    rw [idxE_ok m [] hi, ok_bind, idxE_ok (m.getD i []) 0 (by omega), ok_bind,
      idxE_ok v 0 (by omega), ok_bind]
    rfl
  rw [mapM_ok _ _ _ hbody]
  rfl

theorem add_vv_ok (a b : List ℂ) (h : a.length = b.length) :
    add_vv a b = Except.ok ((a.zip b).map (fun p => p.1 + p.2)) := by
  simp [add_vv, h]

theorem mul_vv_el_ok (a b : List ℂ) (h : a.length = b.length) :
    mul_vv_el a b = Except.ok ((a.zip b).map (fun p => p.1 * p.2)) := by
  simp [mul_vv_el, h]

/-! ### The kernels the code actually computes

Because `compute_dft_matrix` embeds the loop indices as purely imaginary
numbers, the entry is `exp(w * (i*I) * (j*I)) = exp(-w*i*j*I*I*I /I ...)`;
concretely for `w = mkC 0 a` the entry is `exp(-(a*i*j) * I)`.  With
`a = -2π/n` (forward path) this is the positive-sign kernel
`exp(+2π*i*j/n * I)`, and with `a = 2π/n` (inverse path) the negative-sign
kernel `exp(-(2π*i*j/n) * I)`. -/

theorem mkC_zero_im (t : ℝ) : mkC 0 t = (t : ℂ) * Complex.I := by
  simp [mkC, Complex.mk_eq_add_mul_I]

theorem mkC_real (t : ℝ) : mkC t 0 = (t : ℂ) := by
  simp [mkC, Complex.mk_eq_add_mul_I]

theorem entry_exp (a : ℝ) (i j : ℕ) :
    Complex.exp (mkC 0 a * mkC 0 (i : ℝ) * mkC 0 (j : ℝ)) =
      Complex.exp ((-(a * i * j) : ℝ) * Complex.I) := by
  rw [mkC_zero_im, mkC_zero_im, mkC_zero_im]
  congr 1
  have h3 : (a : ℂ) * Complex.I * ((i : ℝ) * Complex.I) * ((j : ℝ) * Complex.I) =
      ((a : ℂ) * (i : ℝ) * (j : ℝ)) * (Complex.I * Complex.I) * Complex.I := by ring
  rw [h3, Complex.I_mul_I]
  push_cast
  ring

/-- The forward kernel the code computes: `exp(2π·k·j/n · I)` (positive sign). -/
noncomputable def dftKernel (n k j : ℕ) : ℂ :=
  Complex.exp (((2 * Real.pi * k * j / n : ℝ)) * Complex.I)

/-- The inverse kernel the code computes: `exp(−2π·i·k/n · I)`. -/
noncomputable def idftKernel (n i k : ℕ) : ℂ :=
  Complex.exp ((-(2 * Real.pi * i * k / n) : ℝ) * Complex.I)

/-- Value of the spectrum the code computes: `X_k = Σ_j x_j · exp(2π·k·j/n · I)`. -/
noncomputable def dftFormula (x : List ℂ) : List ℂ :=
  (List.range x.length).map (fun k =>
    ((List.range x.length).map (fun j => dftKernel x.length k j * x.getD j 0)).sum)

/-- Value of the inverse transform the code computes. -/
noncomputable def idftFormula (x : List ℂ) : List ℝ :=
  (List.range x.length).map (fun i =>
    ((((List.range x.length).map (fun k => idftKernel x.length i k * x.getD k 0)).sum) /
      (x.length : ℂ)).re)

theorem compute_dft_matrix_length (n : ℕ) (w : ℂ) :
    (compute_dft_matrix n w).length = n := by
  unfold compute_dft_matrix
  rw [List.length_map, List.length_range]

theorem compute_dft_matrix_rows (n : ℕ) (w : ℂ) :
    ∀ row ∈ compute_dft_matrix n w, row.length = (compute_dft_matrix n w).length := by
  intro row hrow
  rw [compute_dft_matrix_length]
  unfold compute_dft_matrix at hrow
  rw [List.mem_map] at hrow
  obtain ⟨i, _, rfl⟩ := hrow
  rw [List.length_map, List.length_range]

theorem compute_dft_matrix_getD (n i j : ℕ) (w : ℂ) (hi : i < n) (hj : j < n) :
    ((compute_dft_matrix n w).getD i []).getD j 0 =
      Complex.exp (w * mkC 0 (i : ℝ) * mkC 0 (j : ℝ)) := by
  have h1 : i < (compute_dft_matrix n w).length := by rwa [compute_dft_matrix_length]
  rw [List.getD_eq_getElem _ _ h1]
  unfold compute_dft_matrix
  simp only [List.getElem_map, List.getElem_range]
  rw [List.getD_eq_getElem _ _ (by rw [List.length_map, List.length_range]; exact hj)]
  simp only [List.getElem_map, List.getElem_range]

theorem dft_complex_ok (x : List ℂ) (h : 1 ≤ x.length) :
    dft_complex x = Except.ok (dftFormula x) := by
  unfold dft_complex
  rw [mul_mv_ok _ _ (by rw [compute_dft_matrix_length]; omega)
    (compute_dft_matrix_rows _ _) (by rw [compute_dft_matrix_length])]
  rw [compute_dft_matrix_length]
  unfold dftFormula
  congr 1
  refine List.map_congr_left (fun k hk => ?_)
  rw [List.mem_range] at hk
  congr 1
  refine List.map_congr_left (fun j hj => ?_)
  rw [List.mem_range] at hj
  rw [compute_dft_matrix_getD x.length k j _ hk hj, entry_exp]
  unfold dftKernel
  congr 1
  push_cast
  ring_nf

theorem range_mapM_idx {β : Type} (n : ℕ) (r : List ℂ) (hn : n ≤ r.length) (g : ℂ → β) :
    ((List.range n).mapM (fun i => do
      let ri ← idxE r i
      pure (g ri)) : Res (List β)) =
      Except.ok ((List.range n).map (fun i => g (r.getD i 0))) := by
  refine mapM_ok _ _ _ (fun i hi => ?_)
  rw [List.mem_range] at hi
  rw [idxE_ok r 0 (by omega), ok_bind]
  rfl

theorem idft_ok (x : List ℂ) (h : 1 ≤ x.length) :
    idft x = Except.ok (idftFormula x) := by
  unfold idft
  rw [mul_mv_ok _ _ (by rw [compute_dft_matrix_length]; omega)
    (compute_dft_matrix_rows _ _) (by rw [compute_dft_matrix_length])]
  rw [compute_dft_matrix_length, ok_bind]
  simp only [List.length_map, List.length_range]
  rw [range_mapM_idx x.length _ (by rw [List.length_map, List.length_range])]
  congr 1
  unfold idftFormula
  refine List.map_congr_left (fun i hi => ?_)
  rw [List.mem_range] at hi
  rw [List.getD_eq_getElem _ _ (by rw [List.length_map, List.length_range]; exact hi)]
  simp only [List.getElem_map, List.getElem_range, mkC_real]
  congr 2
  congr 1
  refine List.map_congr_left (fun j hj => ?_)
  rw [List.mem_range] at hj
  rw [compute_dft_matrix_getD x.length i j _ hi hj, entry_exp]
  unfold idftKernel
  congr 1
  push_cast
  ring_nf

/-! ### Sums, kernels as root-of-unity powers, orthogonality, inversion -/

theorem listSum_range (f : ℕ → ℂ) (n : ℕ) :
    ((List.range n).map f).sum = ∑ j ∈ Finset.range n, f j := by
  induction n with
  | zero => simp
  | succ n ih =>
    rw [List.range_succ, List.map_append, List.sum_append, Finset.sum_range_succ, ih]
    simp

/-- The primitive `n`-th root of unity underlying both kernels. -/
noncomputable def zeta (n : ℕ) : ℂ := Complex.exp (2 * Real.pi * Complex.I / n)

theorem zeta_ne_zero (n : ℕ) : zeta n ≠ 0 := Complex.exp_ne_zero _

theorem dftKernel_eq_pow (n k j : ℕ) : dftKernel n k j = zeta n ^ (k * j) := by
  rw [zeta, ← Complex.exp_nat_mul]
  unfold dftKernel
  congr 1
  push_cast
  ring

theorem idftKernel_eq_zpow (n i k : ℕ) : idftKernel n i k = zeta n ^ (-(i * k : ℤ)) := by
  rw [zeta, ← Complex.exp_int_mul]
  unfold idftKernel
  congr 1
  push_cast
  ring

theorem kernels_orth (n : ℕ) (hn : 0 < n) (j i : ℕ) (hj : j < n) (hi : i < n) :
    ∑ k ∈ Finset.range n, dftKernel n k j * idftKernel n i k =
      if j = i then (n : ℂ) else 0 := by
  have hprim : IsPrimitiveRoot (zeta n) n := Complex.isPrimitiveRoot_exp n (by omega)
  have hne := zeta_ne_zero n
  have hterm : ∀ k : ℕ, dftKernel n k j * idftKernel n i k =
      (zeta n ^ ((j : ℤ) - (i : ℤ))) ^ k := by
    intro k
    rw [dftKernel_eq_pow, idftKernel_eq_zpow, ← zpow_natCast (zeta n) (k * j),
      ← zpow_add₀ hne, ← zpow_natCast (zeta n ^ ((j : ℤ) - (i : ℤ))) k, ← zpow_mul]
    congr 1
    push_cast
    ring
  simp only [hterm]
  by_cases hji : j = i
  · subst hji
    simp only [sub_self, zpow_zero, one_pow, if_pos rfl]
    rw [Finset.sum_const, Finset.card_range]
    simp
  · rw [if_neg hji]
    have hd0 : (j : ℤ) - (i : ℤ) ≠ 0 := by
      intro hc
      exact hji (by omega)
    have hu1 : zeta n ^ ((j : ℤ) - (i : ℤ)) ≠ 1 := by
      intro hc
      have hdvd := (hprim.zpow_eq_one_iff_dvd _).1 hc
      have hle : (n : ℤ) ≤ |(j : ℤ) - (i : ℤ)| :=
        Int.le_of_dvd (abs_pos.mpr hd0) ((dvd_abs _ _).mpr hdvd)
      have hlt : |(j : ℤ) - (i : ℤ)| < (n : ℤ) := by
        rw [abs_lt]
        omega
      omega
    rw [geom_sum_eq hu1 n]
    have hun : (zeta n ^ ((j : ℤ) - (i : ℤ))) ^ n = 1 := by
      rw [← zpow_natCast (zeta n ^ ((j : ℤ) - (i : ℤ))) n, ← zpow_mul, mul_comm, zpow_mul,
        zpow_natCast, hprim.pow_eq_one, one_zpow]
    rw [hun, sub_self, zero_div]

theorem dftFormula_length (x : List ℂ) : (dftFormula x).length = x.length := by
  unfold dftFormula
  rw [List.length_map, List.length_range]

theorem dftFormula_getD (x : List ℂ) (k : ℕ) (hk : k < x.length) :
    (dftFormula x).getD k 0 =
      ∑ j ∈ Finset.range x.length, dftKernel x.length k j * x.getD j 0 := by
  unfold dftFormula
  rw [List.getD_eq_getElem _ _ (by rw [List.length_map, List.length_range]; exact hk)]
  simp only [List.getElem_map, List.getElem_range]
  exact listSum_range _ _

theorem idftFormula_length (x : List ℂ) : (idftFormula x).length = x.length := by
  unfold idftFormula
  rw [List.length_map, List.length_range]

theorem idftFormula_getD (x : List ℂ) (i : ℕ) (hi : i < x.length) :
    (idftFormula x).getD i 0 =
      ((∑ k ∈ Finset.range x.length, idftKernel x.length i k * x.getD k 0) /
        (x.length : ℂ)).re := by
  unfold idftFormula
  rw [List.getD_eq_getElem _ _ (by rw [List.length_map, List.length_range]; exact hi)]
  simp only [List.getElem_map, List.getElem_range]
  rw [listSum_range]

/-- Exact inversion at the level of the computed formulas: applying the
inverse-path sum to the forward-path spectrum recovers `n · x_i`. -/
theorem inv_entry (x : List ℂ) (h : 1 ≤ x.length) (i : ℕ) (hi : i < x.length) :
    ∑ k ∈ Finset.range x.length, idftKernel x.length i k * (dftFormula x).getD k 0 =
      (x.length : ℂ) * x.getD i 0 := by
  have hstep : ∀ k ∈ Finset.range x.length,
      idftKernel x.length i k * (dftFormula x).getD k 0 =
        ∑ j ∈ Finset.range x.length,
          dftKernel x.length k j * idftKernel x.length i k * x.getD j 0 := by
    intro k hk
    rw [Finset.mem_range] at hk
    rw [dftFormula_getD x k hk, Finset.mul_sum]
    exact Finset.sum_congr rfl (fun j _ => by ring)
  rw [Finset.sum_congr rfl hstep, Finset.sum_comm]
  have hj : ∀ j ∈ Finset.range x.length,
      ∑ k ∈ Finset.range x.length,
        dftKernel x.length k j * idftKernel x.length i k * x.getD j 0 =
        (if j = i then (x.length : ℂ) else 0) * x.getD j 0 := by
    intro j hjr
    rw [Finset.mem_range] at hjr
    rw [← Finset.sum_mul, kernels_orth x.length (by omega) j i hjr hi]
  rw [Finset.sum_congr rfl hj]
  simp only [ite_mul, zero_mul]
  rw [Finset.sum_ite_eq' (Finset.range x.length) i
    (fun j => (x.length : ℂ) * x.getD j 0)]
  rw [if_pos (Finset.mem_range.mpr hi)]

/-- The inverse formula applied to the forward formula returns the real parts
of the original entries, exactly. -/
theorem idftFormula_dftFormula (x : List ℂ) (h : 1 ≤ x.length) :
    idftFormula (dftFormula x) = x.map Complex.re := by
  have hn0 : ((x.length : ℂ)) ≠ 0 := by
    rw [Nat.cast_ne_zero]
    omega
  refine List.ext_getElem (by rw [idftFormula_length, dftFormula_length, List.length_map]) ?_
  intro i h1 h2
  have hi : i < x.length := by
    rw [idftFormula_length, dftFormula_length] at h1
    exact h1
  rw [← List.getD_eq_getElem (idftFormula (dftFormula x)) 0 h1,
    idftFormula_getD _ i (by rw [dftFormula_length]; exact hi)]
  rw [dftFormula_length, inv_entry x h i hi, mul_div_cancel_left₀ _ hn0,
    List.getElem_map, List.getD_eq_getElem x 0 hi]

/-! ### Power-of-two arithmetic and even/odd index splitting -/

theorem is_power_of_two_iff : ∀ n : ℕ, is_power_of_two n = true ↔ ∃ k : ℕ, n = 2 ^ k := by
  intro n
  induction n using Nat.strong_induction_on with
  | _ n ih =>
    match n with
    | 0 =>
      constructor
      · intro h
        simp [is_power_of_two] at h
      · rintro ⟨k, hk⟩
        have h2 : 0 < 2 ^ k := pow_pos (by norm_num) k
        omega
    | 1 =>
      constructor
      · intro _
        exact ⟨0, rfl⟩
      · intro _
        simp [is_power_of_two]
    | (m + 2) =>
      rw [is_power_of_two, Bool.and_eq_true, beq_iff_eq]
      have ihh := ih ((m + 2) / 2) (by omega)
      constructor
      · rintro ⟨hev, hpow⟩
        obtain ⟨k, hk⟩ := ihh.1 hpow
        refine ⟨k + 1, ?_⟩
        rw [pow_succ]
        omega
      · rintro ⟨k, hk⟩
        match k with
        | 0 => omega
        | (k + 1) =>
          rw [pow_succ] at hk
          have h2 : 0 < 2 ^ k := pow_pos (by norm_num) k
          refine ⟨by omega, ihh.2 ⟨k, by omega⟩⟩

theorem evenIdx_getD {α : Type} (d : α) : ∀ (l : List α) (i : ℕ),
    (evenIdx l).getD i d = l.getD (2 * i) d
  | [], i => by simp [evenIdx]
  | [a], i => by
    cases i with
    | zero => rfl
    | succ j =>
      have e1 : evenIdx [a] = [a] := by simp [evenIdx]
      rw [e1, List.getD_eq_default _ _ (by simp), List.getD_eq_default _ _ (by simp; omega)]
  | a :: b :: t, i => by
    cases i with
    | zero => rfl
    | succ j =>
      have h2 : 2 * (j + 1) = (2 * j + 1) + 1 := by ring
      rw [h2]
      show (evenIdx t).getD j d = t.getD (2 * j) d
      exact evenIdx_getD d t j

theorem oddIdx_getD {α : Type} (d : α) (l : List α) (i : ℕ) :
    (oddIdx l).getD i d = l.getD (2 * i + 1) d := by
  cases l with
  | nil => simp [oddIdx, evenIdx]
  | cons a t =>
    show (evenIdx t).getD i d = (a :: t).getD (2 * i + 1) d
    rw [evenIdx_getD d t i]
    rfl

/-! ### Kernel identities used by the Cooley–Tukey combine -/

theorem twiddle_exp (a : ℝ) (i : ℕ) :
    Complex.exp (mkC 0 a * mkC (i : ℝ) 0) = Complex.exp (((a * i : ℝ)) * Complex.I) := by
  rw [mkC_zero_im, mkC_real]
  congr 1
  push_cast
  ring

theorem zeta_two_mul_sq (m : ℕ) (hm : 0 < m) : zeta (2 * m) ^ 2 = zeta m := by
  have hm' : (m : ℂ) ≠ 0 := Nat.cast_ne_zero.mpr (by omega)
  rw [zeta, zeta, ← Complex.exp_nat_mul]
  congr 1
  push_cast
  field_simp
  ring

theorem dftKernel_even (m i j : ℕ) (hm : 0 < m) :
    dftKernel (2 * m) i (2 * j) = dftKernel m i j := by
  rw [dftKernel_eq_pow, dftKernel_eq_pow, show i * (2 * j) = 2 * (i * j) from by ring,
    pow_mul, zeta_two_mul_sq m hm]

theorem dftKernel_odd (m i j : ℕ) (hm : 0 < m) :
    dftKernel (2 * m) i (2 * j + 1) = dftKernel m i j * dftKernel (2 * m) i 1 := by
  rw [dftKernel_eq_pow, dftKernel_eq_pow, dftKernel_eq_pow,
    show i * (2 * j + 1) = 2 * (i * j) + i from by ring, pow_add, pow_mul,
    zeta_two_mul_sq m hm, Nat.mul_one]

theorem dftKernel_row_period (m t j : ℕ) (hm : 0 < m) :
    dftKernel m (m + t) j = dftKernel m t j := by
  rw [dftKernel_eq_pow, dftKernel_eq_pow]
  have hprim : IsPrimitiveRoot (zeta m) m := Complex.isPrimitiveRoot_exp m (by omega)
  have h : (m + t) * j = m * j + t * j := by ring
  rw [h, pow_add, pow_mul, hprim.pow_eq_one, one_pow, one_mul]

theorem sum_range_even_odd (f : ℕ → ℂ) (m : ℕ) :
    ∑ j ∈ Finset.range (2 * m), f j =
      ∑ j ∈ Finset.range m, f (2 * j) + ∑ j ∈ Finset.range m, f (2 * j + 1) := by
  induction m with
  | zero => simp
  | succ m ih =>
    have h : 2 * (m + 1) = 2 * m + 1 + 1 := by ring
    rw [h, Finset.sum_range_succ, Finset.sum_range_succ, Finset.sum_range_succ,
      Finset.sum_range_succ, ih]
    ring

/-- The butterfly identity: entry `i` of the full spectrum equals
`E_t + O_t · twiddle_i`, where `t` is `i` or `i - m`. -/
theorem dft_split (x : List ℂ) (m : ℕ) (hm : 0 < m) (hx : x.length = 2 * m)
    (i t : ℕ) (ht : t < m) (hmod : i = t ∨ i = m + t) :
    (dftFormula x).getD i 0 =
      (dftFormula (evenIdx x)).getD t 0 +
        (dftFormula (oddIdx x)).getD t 0 * dftKernel (2 * m) i 1 := by
  have hi : i < 2 * m := by omega
  have hel : (evenIdx x).length = m := by rw [evenIdx_length, hx]; omega
  have hol : (oddIdx x).length = m := by rw [oddIdx_length, hx]; omega
  rw [dftFormula_getD x i (by omega), hx]
  rw [dftFormula_getD (evenIdx x) t (by omega), hel]
  rw [dftFormula_getD (oddIdx x) t (by omega), hol]
  rw [sum_range_even_odd (fun j => dftKernel (2 * m) i j * x.getD j 0) m]
  have heven : ∀ j ∈ Finset.range m,
      dftKernel (2 * m) i (2 * j) * x.getD (2 * j) 0 =
        dftKernel m t j * (evenIdx x).getD j 0 := by
    intro j _
    rw [dftKernel_even m i j hm, evenIdx_getD 0 x j]
    rcases hmod with h | h
    · rw [h]
    · rw [h, dftKernel_row_period m t j hm]
  have hodd : ∀ j ∈ Finset.range m,
      dftKernel (2 * m) i (2 * j + 1) * x.getD (2 * j + 1) 0 =
        dftKernel m t j * (oddIdx x).getD j 0 * dftKernel (2 * m) i 1 := by
    intro j _
    rw [dftKernel_odd m i j hm, oddIdx_getD 0 x j]
    rcases hmod with h | h
    · rw [h]
      ring
    · rw [h, dftKernel_row_period m t j hm]
      ring
  rw [Finset.sum_congr rfl heven, Finset.sum_congr rfl hodd, ← Finset.sum_mul]

/-! ### The recursive FFT computes the same spectrum as the direct DFT -/

theorem twiddle_eq_kernel (n i : ℕ) :
    Complex.exp (mkC 0 (2 * Real.pi / (n : ℝ)) * mkC (i : ℝ) 0) = dftKernel n i 1 := by
  rw [twiddle_exp]
  unfold dftKernel
  congr 2
  ring_nf

theorem getElem_eq_getD (l : List ℂ) (i : ℕ) (h : i < l.length) : l[i] = l.getD i 0 :=
  (List.getD_eq_getElem l 0 h).symm

/-- Abstract butterfly combine: two zip-map halves assemble exactly the list
whose entries satisfy the butterfly equations. -/
theorem butterfly_list (E O T D R : List ℂ) (m : ℕ)
    (hE : E.length = m) (hO : O.length = m) (hT : T.length = m) (hD : D.length = m)
    (hR : R.length = m + m)
    (h1 : ∀ t, t < m → R.getD t 0 = E.getD t 0 + O.getD t 0 * T.getD t 0)
    (h2 : ∀ t, t < m → R.getD (m + t) 0 = E.getD t 0 + O.getD t 0 * D.getD t 0) :
    (E.zip ((O.zip T).map (fun p => p.1 * p.2))).map (fun p => p.1 + p.2) ++
      (E.zip ((O.zip D).map (fun p => p.1 * p.2))).map (fun p => p.1 + p.2) = R := by
  have hA : ((E.zip ((O.zip T).map (fun p => p.1 * p.2))).map
      (fun p => p.1 + p.2)).length = m := by
    simp [List.length_map, List.length_zip, hE, hO, hT]
  have hB : ((E.zip ((O.zip D).map (fun p => p.1 * p.2))).map
      (fun p => p.1 + p.2)).length = m := by
    simp [List.length_map, List.length_zip, hE, hO, hD]
  refine List.ext_getElem (by rw [List.length_append, hA, hB, hR]) ?_
  intro i hi1 hi2
  rw [hR] at hi2
  by_cases hi : i < m
  · rw [List.getElem_append_left (by rw [hA]; exact hi)]
    simp only [List.getElem_map, List.getElem_zip]
    simp only [getElem_eq_getD]
    exact (h1 i hi).symm
  · rw [List.getElem_append_right (by rw [hA]; omega)]
    simp only [List.getElem_map, List.getElem_zip]
    simp only [getElem_eq_getD]
    rw [hA]
    have hge := h2 (i - m) (by omega)
    rw [show m + (i - m) = i from by omega] at hge
    exact hge.symm

theorem fft_complex_pow2 : ∀ (k : ℕ) (x : List ℂ), x.length = 2 ^ k →
    fft_complex x = Except.ok (dftFormula x) := by
  intro k
  induction k with
  | zero =>
    intro x hx
    have hp : is_power_of_two x.length = true := (is_power_of_two_iff _).2 ⟨0, hx⟩
    rw [fft_complex, dif_neg (by rw [hp]; simp), dif_pos (by rw [hx]; norm_num)]
    exact dft_complex_ok x (by rw [hx]; norm_num)
  | succ k ih =>
    intro x hx
    have hp : is_power_of_two x.length = true := (is_power_of_two_iff _).2 ⟨k + 1, hx⟩
    by_cases hk2 : x.length ≤ 2
    · rw [fft_complex, dif_neg (by rw [hp]; simp), dif_pos hk2]
      exact dft_complex_ok x (by rw [hx]; exact Nat.one_le_two_pow)
    · have hm : 0 < 2 ^ k := pow_pos (by norm_num) k
      have hn2 : x.length = 2 * 2 ^ k := by rw [hx, pow_succ]; ring
      have hel : (evenIdx x).length = 2 ^ k := by rw [evenIdx_length, hn2]; omega
      have hol : (oddIdx x).length = 2 ^ k := by rw [oddIdx_length, hn2]; omega
      have hE := ih (evenIdx x) hel
      have hO := ih (oddIdx x) hol
      have hElen : (dftFormula (evenIdx x)).length = 2 ^ k := by
        rw [dftFormula_length, hel]
      have hOlen : (dftFormula (oddIdx x)).length = 2 ^ k := by
        rw [dftFormula_length, hol]
      have hfl : ((List.range x.length).map (fun (i : ℕ) =>
          Complex.exp (mkC 0 (2 * Real.pi / (x.length : ℝ)) * mkC (i : ℝ) 0))).length =
            x.length := by
        rw [List.length_map, List.length_range]
      have htake : (((List.range x.length).map (fun (i : ℕ) =>
          Complex.exp (mkC 0 (2 * Real.pi / (x.length : ℝ)) * mkC (i : ℝ) 0))).take
            (x.length / 2)).length = 2 ^ k := by
        rw [List.length_take, hfl]
        omega
      have hdrop : (((List.range x.length).map (fun (i : ℕ) =>
          Complex.exp (mkC 0 (2 * Real.pi / (x.length : ℝ)) * mkC (i : ℝ) 0))).drop
            (x.length / 2)).length = 2 ^ k := by
        rw [List.length_drop, hfl]
        omega
      rw [fft_complex, dif_neg (by rw [hp]; simp), dif_neg hk2, hE, hO]
      simp only [ok_bind]
      rw [mul_vv_el_ok _ _ (by rw [hOlen, htake]), ok_bind,
        add_vv_ok _ _ (by rw [hElen, List.length_map, List.length_zip, hOlen, htake]; simp),
        ok_bind,
        mul_vv_el_ok _ _ (by rw [hOlen, hdrop]), ok_bind,
        add_vv_ok _ _ (by rw [hElen, List.length_map, List.length_zip, hOlen, hdrop]; simp),
        ok_bind, pure_eq_ok]
      refine congrArg Except.ok (butterfly_list _ _ _ _ _ (2 ^ k) hElen hOlen htake hdrop
        (by rw [dftFormula_length]; omega) ?_ ?_)
      · intro t ht
        have hT : ((((List.range x.length).map (fun (i : ℕ) =>
            Complex.exp (mkC 0 (2 * Real.pi / (x.length : ℝ)) * mkC (i : ℝ) 0))).take
              (x.length / 2)).getD t 0) = dftKernel (2 * 2 ^ k) t 1 := by
          rw [List.getD_eq_getElem _ 0 (by rw [htake]; exact ht), List.getElem_take,
            List.getElem_map, List.getElem_range, twiddle_eq_kernel, hn2]
        rw [dft_split x (2 ^ k) hm hn2 t t ht (Or.inl rfl), hT]
      · intro t ht
        have hD : ((((List.range x.length).map (fun (i : ℕ) =>
            Complex.exp (mkC 0 (2 * Real.pi / (x.length : ℝ)) * mkC (i : ℝ) 0))).drop
              (x.length / 2)).getD t 0) = dftKernel (2 * 2 ^ k) (2 ^ k + t) 1 := by
          rw [List.getD_eq_getElem _ 0 (by rw [hdrop]; exact ht), List.getElem_drop,
            List.getElem_map, List.getElem_range, twiddle_eq_kernel, hn2,
            show 2 * 2 ^ k / 2 + t = 2 ^ k + t from by omega]
        rw [dft_split x (2 ^ k) hm hn2 (2 ^ k + t) t ht (Or.inr rfl), hD]
/-! ### The inverse FFT equals the inverse DFT formula; failure paths -/

theorem conj_dftKernel (n i k : ℕ) :
    (starRingEnd ℂ) (dftKernel n i k) = idftKernel n i k := by
  unfold dftKernel idftKernel
  rw [← Complex.exp_conj]
  congr 1
  rw [map_mul, Complex.conj_ofReal, Complex.conj_I]
  push_cast
  ring

theorem ifft_ok (x : List ℂ) (k : ℕ) (hk : x.length = 2 ^ k) :
    ifft x = Except.ok (idftFormula x) := by
  have hcl : (x.map (fun c => (starRingEnd ℂ) c)).length = 2 ^ k := by
    rw [List.length_map, hk]
  have hf := fft_complex_pow2 k _ hcl
  unfold ifft
  rw [hf, ok_bind]
  have hdl : (dftFormula (x.map (fun c => (starRingEnd ℂ) c))).length = x.length := by
    rw [dftFormula_length, List.length_map]
  rw [range_mapM_idx x.length _ (by rw [hdl]) ((starRingEnd ℂ)), ok_bind]
  simp only [List.length_map, List.length_range]
  rw [range_mapM_idx x.length _ (by rw [List.length_map, List.length_range])
    (fun c => (c / mkC (x.length : ℝ) 0).re)]
  congr 1
  unfold idftFormula
  refine List.map_congr_left (fun i hi => ?_)
  rw [List.mem_range] at hi
  rw [mkC_real]
  rw [List.getD_eq_getElem _ 0 (by rw [List.length_map, List.length_range]; exact hi)]
  simp only [List.getElem_map, List.getElem_range]
  rw [dftFormula_getD _ i (by rw [List.length_map]; exact hi), List.length_map, map_sum]
  congr 2
  refine Finset.sum_congr rfl (fun t htr => ?_)
  rw [Finset.mem_range] at htr
  rw [map_mul, conj_dftKernel]
  congr 1
  rw [List.getD_eq_getElem _ 0 (by rw [List.length_map]; exact htr), List.getElem_map,
    Complex.conj_conj, List.getD_eq_getElem x 0 htr]

theorem fft_complex_not_pow2 (x : List ℂ) (h : is_power_of_two x.length = false) :
    fft_complex x = Except.error (RunErr.err (FftError.NotAPowerOfTwo x.length)) := by
  rw [fft_complex, dif_pos h]

theorem fft_not_pow2 (x : List ℝ) (h : is_power_of_two x.length = false) :
    fft x = Except.error (RunErr.err (FftError.NotAPowerOfTwo x.length)) := by
  unfold fft
  rw [fft_complex_not_pow2 _ (by rw [List.length_map]; exact h), List.length_map]

theorem ifft_not_pow2 (x : List ℂ) (h : is_power_of_two x.length = false) :
    ifft x = Except.error (RunErr.err (FftError.NotAPowerOfTwo x.length)) := by
  unfold ifft
  rw [fft_complex_not_pow2 _ (by rw [List.length_map]; exact h), List.length_map, error_bind]

theorem fft_pow2 (x : List ℝ) (k : ℕ) (hk : x.length = 2 ^ k) :
    fft x = Except.ok (dftFormula (x.map (fun v => mkC v 0))) := by
  unfold fft
  exact fft_complex_pow2 k _ (by rw [List.length_map, hk])

theorem dft_ok (x : List ℝ) (h : 1 ≤ x.length) :
    dft x = Except.ok (dftFormula (x.map (fun v => mkC v 0))) := by
  unfold dft
  exact dft_complex_ok _ (by rw [List.length_map]; exact h)

theorem mul_mv_nil_nil :
    mul_mv ([] : List (List ℂ)) ([] : List ℂ) =
      Except.error (RunErr.panic PanicKind.indexOutOfBounds) := by
  unfold mul_mv
  rw [idxE_oob ([] : List (List ℂ)) (by simp), error_bind]

theorem dft_complex_nil :
    dft_complex ([] : List ℂ) = Except.error (RunErr.panic PanicKind.indexOutOfBounds) := by
  unfold dft_complex
  have h0 : compute_dft_matrix ([] : List ℂ).length
      (mkC 0 (-2 * Real.pi / ((([] : List ℂ).length : ℕ) : ℝ))) = [] := by
    unfold compute_dft_matrix
    simp
  rw [h0]
  exact mul_mv_nil_nil

theorem dft_nil :
    dft ([] : List ℝ) = Except.error (RunErr.panic PanicKind.indexOutOfBounds) := by
  unfold dft
  rw [List.map_nil]
  exact dft_complex_nil

theorem idft_nil :
    idft ([] : List ℂ) = Except.error (RunErr.panic PanicKind.indexOutOfBounds) := by
  unfold idft
  have h0 : compute_dft_matrix ([] : List ℂ).length
      (mkC 0 (2 * Real.pi / ((([] : List ℂ).length : ℕ) : ℝ))) = [] := by
    unfold compute_dft_matrix
    simp
  rw [h0, mul_mv_nil_nil, error_bind]

theorem roundtrip_real (x : List ℝ) (h : 1 ≤ x.length) :
    idftFormula (dftFormula (x.map (fun v => mkC v 0))) = x := by
  rw [idftFormula_dftFormula _ (by rw [List.length_map]; exact h), List.map_map]
  have hid : (Complex.re ∘ fun v => mkC v 0) = id := by
    funext v
    rfl
  rw [hid, List.map_id]

/-! ### The claims -/

/-- The spectrum the specification text prescribes for `dft_complex`
(negative sign in the exponent): `X_k = Σ_j x_j · e^(−2πi·k·j/n)`.
This definition follows the spec's words, for comparison with the code. -/
noncomputable def specDft (x : List ℂ) : List ℂ :=
  (List.range x.length).map (fun (k : ℕ) =>
    ((List.range x.length).map (fun (j : ℕ) =>
      x.getD j 0 * Complex.exp ((-(2 * Real.pi * k * j / x.length) : ℝ) * Complex.I))).sum)

theorem specDft_getD (x : List ℂ) (k : ℕ) (hk : k < x.length) :
    (specDft x).getD k 0 = ∑ j ∈ Finset.range x.length,
      x.getD j 0 * idftKernel x.length k j := by
  unfold specDft
  rw [List.getD_eq_getElem _ _ (by rw [List.length_map, List.length_range]; exact hk)]
  simp only [List.getElem_map, List.getElem_range]
  exact listSum_range _ _

theorem dftKernel_4_1_1_im : (dftKernel 4 1 1).im = 1 := by
  unfold dftKernel
  rw [Complex.exp_ofReal_mul_I_im]
  push_cast
  rw [show (2 * Real.pi * 1 * 1 / 4 : ℝ) = Real.pi / 2 from by ring]
  exact Real.sin_pi_div_two

theorem idftKernel_4_1_1_im : (idftKernel 4 1 1).im = -1 := by
  unfold idftKernel
  rw [Complex.exp_ofReal_mul_I_im]
  push_cast
  rw [show (-(2 * Real.pi * 1 * 1 / 4) : ℝ) = -(Real.pi / 2) from by ring, Real.sin_neg,
    Real.sin_pi_div_two]

/-- C1 counterexample: on the input `[0, 1, 0, 0]` the code's spectrum differs
from the spec's negative-sign formula (at index 1 the code yields `i`, the
spec's formula `−i`), so `dft_complex` is not the claimed matrix product. -/
theorem C1_cex :
    dft_complex [0, 1, 0, 0] ≠ Except.ok (specDft [0, 1, 0, 0]) := by
  intro hc
  rw [dft_complex_ok _ (by simp)] at hc
  have hl : dftFormula [0, 1, 0, 0] = specDft [0, 1, 0, 0] := Except.ok.inj hc
  have h1 := congrArg (fun l : List ℂ => (l.getD 1 0).im) hl
  simp only at h1
  have e1 : (dftFormula ([0, 1, 0, 0] : List ℂ)).getD 1 0 = dftKernel 4 1 1 := by
    rw [dftFormula_getD _ 1 (by simp)]
    show ∑ j ∈ Finset.range 4, dftKernel 4 1 j * ([0, 1, 0, 0] : List ℂ).getD j 0 =
      dftKernel 4 1 1
    rw [Finset.sum_range_succ, Finset.sum_range_succ, Finset.sum_range_succ,
      Finset.sum_range_succ, Finset.sum_range_zero]
    norm_num [List.getD_cons_zero, List.getD_cons_succ]
  have e2 : (specDft ([0, 1, 0, 0] : List ℂ)).getD 1 0 = idftKernel 4 1 1 := by
    rw [specDft_getD _ 1 (by simp)]
    show ∑ j ∈ Finset.range 4, ([0, 1, 0, 0] : List ℂ).getD j 0 * idftKernel 4 1 j =
      idftKernel 4 1 1
    rw [Finset.sum_range_succ, Finset.sum_range_succ, Finset.sum_range_succ,
      Finset.sum_range_succ, Finset.sum_range_zero]
    norm_num [List.getD_cons_zero, List.getD_cons_succ]
  rw [e1, e2, dftKernel_4_1_1_im, idftKernel_4_1_1_im] at h1
  norm_num at h1

/-- C1 (amended): `dft_complex` does build `w = −2πi/n`, but because the loop
indices are embedded as purely imaginary numbers the matrix entry `(i, j)` is
`e^(−w·i·j) = e^(+2πi·i·j/n)`, and the result is `X_k = Σ_j x_j · e^(+2πi·k·j/n)`
(positive sign in the exponent), obtained by multiplying that matrix with `x`. -/
theorem C1_dft_complex_positive_kernel (x : List ℂ) (h : 1 ≤ x.length) :
    (∀ i j, i < x.length → j < x.length →
      ((compute_dft_matrix x.length (mkC 0 (-2 * Real.pi / (x.length : ℝ)))).getD i []).getD j 0 =
        Complex.exp (((2 * Real.pi * i * j / x.length : ℝ)) * Complex.I)) ∧
    dft_complex x = Except.ok (dftFormula x) := by
  constructor
  · intro i j hi hj
    rw [compute_dft_matrix_getD _ i j _ hi hj, entry_exp]
    congr 2
    ring_nf
  · exact dft_complex_ok x h

/-- C1 witness at the concrete input `[0, 1, 0, 0]`. -/
theorem C1_witness :
    1 ≤ ([0, 1, 0, 0] : List ℂ).length ∧
    ((∀ i j, i < ([0, 1, 0, 0] : List ℂ).length → j < ([0, 1, 0, 0] : List ℂ).length →
      ((compute_dft_matrix ([0, 1, 0, 0] : List ℂ).length
        (mkC 0 (-2 * Real.pi / (([0, 1, 0, 0] : List ℂ).length : ℝ)))).getD i []).getD j 0 =
        Complex.exp (((2 * Real.pi * i * j / ([0, 1, 0, 0] : List ℂ).length : ℝ)) * Complex.I)) ∧
     dft_complex [0, 1, 0, 0] = Except.ok (dftFormula [0, 1, 0, 0])) :=
  ⟨by simp, C1_dft_complex_positive_kernel [0, 1, 0, 0] (by simp)⟩

/-- C2: for every nonempty real input, `idft (dft x)` succeeds, has the input's
length, and each element differs from the input by at most `1e-5` (in the exact
model the difference is `0`). -/
theorem C2_dft_roundtrip (x : List ℝ) (h : 1 ≤ x.length) :
    ∃ X o, dft x = Except.ok X ∧ idft X = Except.ok o ∧ o.length = x.length ∧
      ∀ i, i < x.length → |o.getD i 0 - x.getD i 0| ≤ 1e-5 := by
  have hX := dft_ok x h
  have hXlen : (dftFormula (x.map (fun v => mkC v 0))).length = x.length := by
    rw [dftFormula_length, List.length_map]
  have ho := idft_ok (dftFormula (x.map (fun v => mkC v 0))) (by rw [hXlen]; exact h)
  refine ⟨_, _, hX, ho, ?_, ?_⟩
  · rw [roundtrip_real x h]
  · intro i hi
    rw [roundtrip_real x h, sub_self, abs_zero]
    norm_num

/-- C2 witness at the concrete input `[1, 0]`. -/
theorem C2_witness :
    1 ≤ ([1, 0] : List ℝ).length ∧
    (∃ X o, dft [1, 0] = Except.ok X ∧ idft X = Except.ok o ∧
      o.length = ([1, 0] : List ℝ).length ∧
      ∀ i, i < ([1, 0] : List ℝ).length →
        |o.getD i 0 - ([1, 0] : List ℝ).getD i 0| ≤ 1e-5) :=
  ⟨by simp, C2_dft_roundtrip [1, 0] (by simp)⟩

/-- C3: for every real input whose length is a power of two, `fft` succeeds,
`ifft` of the result succeeds, and the round trip reproduces the input within
`1e-5` per element (in the exact model, exactly). -/
theorem C3_fft_roundtrip (x : List ℝ) (h : is_power_of_two x.length = true) :
    ∃ X o, fft x = Except.ok X ∧ ifft X = Except.ok o ∧ o.length = x.length ∧
      ∀ i, i < x.length → |o.getD i 0 - x.getD i 0| ≤ 1e-5 := by
  obtain ⟨k, hk⟩ := (is_power_of_two_iff _).1 h
  have h1 : 1 ≤ x.length := by
    rw [hk]
    exact Nat.one_le_two_pow
  have hX := fft_pow2 x k hk
  have hXlen : (dftFormula (x.map (fun v => mkC v 0))).length = x.length := by
    rw [dftFormula_length, List.length_map]
  have ho := ifft_ok (dftFormula (x.map (fun v => mkC v 0))) k (by rw [hXlen]; exact hk)
  refine ⟨_, _, hX, ho, ?_, ?_⟩
  · rw [roundtrip_real x h1]
  · intro i hi
    rw [roundtrip_real x h1, sub_self, abs_zero]
    norm_num

/-- C3 witness at the concrete input `[1, 0]`. -/
theorem C3_witness :
    is_power_of_two ([1, 0] : List ℝ).length = true ∧
    (∃ X o, fft [1, 0] = Except.ok X ∧ ifft X = Except.ok o ∧
      o.length = ([1, 0] : List ℝ).length ∧
      ∀ i, i < ([1, 0] : List ℝ).length →
        |o.getD i 0 - ([1, 0] : List ℝ).getD i 0| ≤ 1e-5) :=
  ⟨by simp [is_power_of_two], C3_fft_roundtrip [1, 0] (by simp [is_power_of_two])⟩

/-- C4: for every real input whose length is a power of two, `fft` and `dft`
both succeed and produce spectra of equal length that agree within `1e-5` per
element (in the exact model they are identical). -/
theorem C4_fft_dft_equiv (x : List ℝ) (h : is_power_of_two x.length = true) :
    ∃ X Y, fft x = Except.ok X ∧ dft x = Except.ok Y ∧ X.length = Y.length ∧
      ∀ i, i < X.length → Complex.abs (X.getD i 0 - Y.getD i 0) ≤ 1e-5 := by
  obtain ⟨k, hk⟩ := (is_power_of_two_iff _).1 h
  have h1 : 1 ≤ x.length := by
    rw [hk]
    exact Nat.one_le_two_pow
  refine ⟨_, _, fft_pow2 x k hk, dft_ok x h1, rfl, ?_⟩
  intro i hi
  rw [sub_self, map_zero]
  norm_num

/-- C4 witness at the concrete input `[1, 0]`. -/
theorem C4_witness :
    is_power_of_two ([1, 0] : List ℝ).length = true ∧
    (∃ X Y, fft [1, 0] = Except.ok X ∧ dft [1, 0] = Except.ok Y ∧ X.length = Y.length ∧
      ∀ i, i < X.length → Complex.abs (X.getD i 0 - Y.getD i 0) ≤ 1e-5) :=
  ⟨by simp [is_power_of_two], C4_fft_dft_equiv [1, 0] (by simp [is_power_of_two])⟩

/-- C10: on the empty input, `fft` and `ifft` return the typed error
`NotAPowerOfTwo 0` (no panic), while `dft` and `idft` panic with an
out-of-bounds index inside `mul_mv` (evaluating `m[0]` on the empty matrix). -/
theorem C10_empty_input :
    fft ([] : List ℝ) = Except.error (RunErr.err (FftError.NotAPowerOfTwo 0)) ∧
    ifft ([] : List ℂ) = Except.error (RunErr.err (FftError.NotAPowerOfTwo 0)) ∧
    dft ([] : List ℝ) = Except.error (RunErr.panic PanicKind.indexOutOfBounds) ∧
    idft ([] : List ℂ) = Except.error (RunErr.panic PanicKind.indexOutOfBounds) :=
  ⟨fft_not_pow2 [] (by simp [is_power_of_two]),
   ifft_not_pow2 [] (by simp [is_power_of_two]),
   dft_nil, idft_nil⟩

/-- C5: `fft` and `ifft` return `Err(NotAPowerOfTwo n)` with `n` the exact
input length whenever the length is not a power of two, return `Ok` otherwise,
and `NotAPowerOfTwo` is the only error value either can ever produce. -/
theorem C5_error_contract (x : List ℝ) (z : List ℂ) :
    (is_power_of_two x.length = false →
      fft x = Except.error (RunErr.err (FftError.NotAPowerOfTwo x.length))) ∧
    (is_power_of_two x.length = true → ∃ r, fft x = Except.ok r) ∧
    (∀ e, fft x = Except.error e → e = RunErr.err (FftError.NotAPowerOfTwo x.length)) ∧
    (is_power_of_two z.length = false →
      ifft z = Except.error (RunErr.err (FftError.NotAPowerOfTwo z.length))) ∧
    (is_power_of_two z.length = true → ∃ r, ifft z = Except.ok r) ∧
    (∀ e, ifft z = Except.error e → e = RunErr.err (FftError.NotAPowerOfTwo z.length)) := by
  have hfok : is_power_of_two x.length = true → ∃ r, fft x = Except.ok r := by
    intro hp
    obtain ⟨k, hk⟩ := (is_power_of_two_iff _).1 hp
    exact ⟨_, fft_pow2 x k hk⟩
  have hiok : is_power_of_two z.length = true → ∃ r, ifft z = Except.ok r := by
    intro hp
    obtain ⟨k, hk⟩ := (is_power_of_two_iff _).1 hp
    exact ⟨_, ifft_ok z k hk⟩
  refine ⟨fft_not_pow2 x, hfok, ?_, ifft_not_pow2 z, hiok, ?_⟩
  · intro e he
    cases hp : is_power_of_two x.length with
    | false =>
      rw [fft_not_pow2 x hp] at he
      exact (Except.error.inj he).symm
    | true =>
      obtain ⟨r, hr⟩ := hfok hp
      rw [hr] at he
      exact absurd he (by simp)
  · intro e he
    cases hp : is_power_of_two z.length with
    | false =>
      rw [ifft_not_pow2 z hp] at he
      exact (Except.error.inj he).symm
    | true =>
      obtain ⟨r, hr⟩ := hiok hp
      rw [hr] at he
      exact absurd he (by simp)

/-- C5 witness: length 3 is rejected with `NotAPowerOfTwo 3`; length 2 is
accepted. -/
theorem C5_witness :
    fft [1, 0, 0] = Except.error (RunErr.err (FftError.NotAPowerOfTwo 3)) ∧
    (∃ r, ifft [1, 0] = Except.ok r) :=
  ⟨(C5_error_contract [1, 0, 0] []).1 (by simp [is_power_of_two]),
   (C5_error_contract [] [1, 0]).2.2.2.2.1 (by simp [is_power_of_two])⟩

/-- C6: whenever an operation succeeds, its output has exactly the length of
its input. -/
theorem C6_length_preservation (x : List ℝ) (z : List ℂ) :
    (∀ y, dft x = Except.ok y → y.length = x.length) ∧
    (∀ o, idft z = Except.ok o → o.length = z.length) ∧
    (∀ y, fft x = Except.ok y → y.length = x.length) ∧
    (∀ o, ifft z = Except.ok o → o.length = z.length) := by
  refine ⟨?_, ?_, ?_, ?_⟩
  · intro y hy
    by_cases hx : 1 ≤ x.length
    · rw [dft_ok x hx] at hy
      rw [← Except.ok.inj hy, dftFormula_length, List.length_map]
    · have hx0 : x = [] := List.length_eq_zero.mp (by omega)
      rw [hx0, dft_nil] at hy
      exact absurd hy (by simp)
  · intro o ho
    by_cases hz : 1 ≤ z.length
    · rw [idft_ok z hz] at ho
      rw [← Except.ok.inj ho, idftFormula_length]
    · have hz0 : z = [] := List.length_eq_zero.mp (by omega)
      rw [hz0, idft_nil] at ho
      exact absurd ho (by simp)
  · intro y hy
    cases hp : is_power_of_two x.length with
    | false =>
      rw [fft_not_pow2 x hp] at hy
      exact absurd hy (by simp)
    | true =>
      obtain ⟨k, hk⟩ := (is_power_of_two_iff _).1 hp
      rw [fft_pow2 x k hk] at hy
      rw [← Except.ok.inj hy, dftFormula_length, List.length_map]
  · intro o ho
    cases hp : is_power_of_two z.length with
    | false =>
      rw [ifft_not_pow2 z hp] at ho
      exact absurd ho (by simp)
    | true =>
      obtain ⟨k, hk⟩ := (is_power_of_two_iff _).1 hp
      rw [ifft_ok z k hk] at ho
      rw [← Except.ok.inj ho, idftFormula_length]

/-- C6 witness: a successful `dft` on `[1, 0]` with output length 2. -/
theorem C6_witness :
    ∃ y, dft [1, 0] = Except.ok y ∧ y.length = ([1, 0] : List ℝ).length := by
  have hd := dft_ok [1, 0] (by simp)
  exact ⟨_, hd, (C6_length_preservation [1, 0] []).1 _ hd⟩

/-- C7: on nonempty inputs the DFT path is total: `dft` and `dft_complex`
return `Ok`, and `idft` returns a plain result vector; no error value arises. -/
theorem C7_dft_path_total (x : List ℝ) (z : List ℂ)
    (hx : 1 ≤ x.length) (hz : 1 ≤ z.length) :
    (∃ y, dft x = Except.ok y) ∧ (∃ y, dft_complex z = Except.ok y) ∧
    (∃ o, idft z = Except.ok o) :=
  ⟨⟨_, dft_ok x hx⟩, ⟨_, dft_complex_ok z hz⟩, ⟨_, idft_ok z hz⟩⟩

/-- C7 witness at the concrete inputs `[1]` and `[1]`. -/
theorem C7_witness :
    1 ≤ ([1] : List ℝ).length ∧ 1 ≤ ([1] : List ℂ).length ∧
    ((∃ y, dft [1] = Except.ok y) ∧ (∃ y, dft_complex [1] = Except.ok y) ∧
     (∃ o, idft [1] = Except.ok o)) :=
  ⟨by simp, by simp, C7_dft_path_total [1] [1] (by simp) (by simp)⟩

/-- C8: on nonempty inputs, no public operation can reach a panic (failed
assertion or out-of-bounds index) inside the linear-algebra primitives: every
outcome is either `Ok` or the typed `NotAPowerOfTwo` error. -/
theorem C8_no_internal_panic (x : List ℝ) (z : List ℂ)
    (hx : 1 ≤ x.length) (hz : 1 ≤ z.length) :
    (∀ p, dft x ≠ Except.error (RunErr.panic p)) ∧
    (∀ p, dft_complex z ≠ Except.error (RunErr.panic p)) ∧
    (∀ p, idft z ≠ Except.error (RunErr.panic p)) ∧
    (∀ p, fft x ≠ Except.error (RunErr.panic p)) ∧
    (∀ p, ifft z ≠ Except.error (RunErr.panic p)) := by
  refine ⟨?_, ?_, ?_, ?_, ?_⟩
  · intro p
    rw [dft_ok x hx]
    simp
  · intro p
    rw [dft_complex_ok z hz]
    simp
  · intro p
    rw [idft_ok z hz]
    simp
  · intro p
    cases hp : is_power_of_two x.length with
    | false =>
      rw [fft_not_pow2 x hp]
      simp
    | true =>
      obtain ⟨k, hk⟩ := (is_power_of_two_iff _).1 hp
      rw [fft_pow2 x k hk]
      simp
  · intro p
    cases hp : is_power_of_two z.length with
    | false =>
      rw [ifft_not_pow2 z hp]
      simp
    | true =>
      obtain ⟨k, hk⟩ := (is_power_of_two_iff _).1 hp
      rw [ifft_ok z k hk]
      simp

/-- C8 witness at the concrete inputs `[1, 0, 0]` and `[1, 0, 0]` (a length the
FFT path rejects with the typed error, still without panicking). -/
theorem C8_witness :
    1 ≤ ([1, 0, 0] : List ℝ).length ∧ 1 ≤ ([1, 0, 0] : List ℂ).length ∧
    ((∀ p, dft [1, 0, 0] ≠ Except.error (RunErr.panic p)) ∧
     (∀ p, dft_complex [1, 0, 0] ≠ Except.error (RunErr.panic p)) ∧
     (∀ p, idft [1, 0, 0] ≠ Except.error (RunErr.panic p)) ∧
     (∀ p, fft [1, 0, 0] ≠ Except.error (RunErr.panic p)) ∧
     (∀ p, ifft [1, 0, 0] ≠ Except.error (RunErr.panic p))) :=
  ⟨by simp, by simp, C8_no_internal_panic [1, 0, 0] [1, 0, 0] (by simp) (by simp)⟩

/-- C9 counterexample: on the 0×0 matrix and empty vector (which satisfy the
claim's preconditions "M is square n×n and v has length n" with n = 0),
`mul_mv` panics at `m[0]` instead of returning the empty result vector. -/
theorem C9_cex :
    mul_mv ([] : List (List ℂ)) ([] : List ℂ) =
      Except.error (RunErr.panic PanicKind.indexOutOfBounds) ∧
    mul_mv ([] : List (List ℂ)) ([] : List ℂ) ≠ Except.ok ([] : List ℂ) := by
  refine ⟨mul_mv_nil_nil, fun hr => ?_⟩
  rw [mul_mv_nil_nil] at hr
  exact absurd hr (by simp)

/-- The 2×2 example matrix of the spec is square. -/
theorem example_matrix_square :
    ∀ row ∈ ([[mkC 1 0, mkC 2 0], [mkC 3 0, mkC 4 0]] : List (List ℂ)),
      row.length = ([[mkC 1 0, mkC 2 0], [mkC 3 0, mkC 4 0]] : List (List ℂ)).length := by
  intro row hrow
  simp only [List.mem_cons, List.not_mem_nil, or_false] at hrow
  rcases hrow with h | h <;> subst h <;> simp

/-- C9 (amended): under the preconditions that M is a square n×n matrix with
n ≥ 1 and v has length n, `mul_mv` returns the length-n vector with
`r[i] = Σ_j M[i][j] * v[j]`; in particular it maps `[[1,2],[3,4]]` (real
values as complex) and `[1,1]` to `[3,7]`. -/
theorem C9_mul_mv_correct (m : List (List ℂ)) (v : List ℂ) (h0 : 1 ≤ m.length)
    (hsq : ∀ row ∈ m, row.length = m.length) (hv : v.length = m.length) :
    mul_mv m v = Except.ok ((List.range m.length).map (fun i =>
        ((List.range m.length).map (fun j => (m.getD i []).getD j 0 * v.getD j 0)).sum)) ∧
    mul_mv [[mkC 1 0, mkC 2 0], [mkC 3 0, mkC 4 0]] [mkC 1 0, mkC 1 0] =
      Except.ok [mkC 3 0, mkC 7 0] := by
  constructor
  · exact mul_mv_ok m v (by omega) hsq hv.symm
  · rw [mul_mv_ok _ _ (by simp) example_matrix_square (by simp)]
    congr 1
    simp only [show ([[mkC 1 0, mkC 2 0], [mkC 3 0, mkC 4 0]] : List (List ℂ)).length = 2
      from rfl]
    simp only [List.range_succ, List.range_zero, List.map_nil, List.map_append,
      List.map_cons, List.sum_append, List.sum_cons, List.sum_nil,
      List.getD_cons_zero, List.getD_cons_succ, mkC_real]
    norm_num [Complex.ext_iff, mkC]

/-- C9 witness: the amended theorem applied at the concrete 2×2 example. -/
theorem C9_witness :
    1 ≤ ([[mkC 1 0, mkC 2 0], [mkC 3 0, mkC 4 0]] : List (List ℂ)).length ∧
    mul_mv [[mkC 1 0, mkC 2 0], [mkC 3 0, mkC 4 0]] [mkC 1 0, mkC 1 0] =
      Except.ok [mkC 3 0, mkC 7 0] :=
  ⟨by simp,
   (C9_mul_mv_correct [[mkC 1 0, mkC 2 0], [mkC 3 0, mkC 4 0]] [mkC 1 0, mkC 1 0]
     (by simp) example_matrix_square (by simp)).2⟩

end Fft
